import Mathlib

/-!
Verification development for the rgit repository (a minimal git client in
Rust).  The Rust sources are shallowly embedded: bytes are `Nat` (always
`< 256` where it matters), byte buffers are `List Nat`, strings are
`List Char`, and fallible or panicking code paths return `Option` (with
`none` standing for a panic / propagated error).  External collaborators
(SHA-1, CRC-32, zlib inflation, the filesystem) are modelled as explicit
parameters or as pre-computed inputs, exactly at the interface the rgit
code consumes them.
-/

namespace RGit

set_option maxRecDepth 8000

/-! ## Delta VM (src/delta.rs)

`DeltaHeader::decode_size` reads a little-endian 7-bit varint: the loop
starts with a synthetic byte `0x80`, so at least one byte is always read;
each byte contributes its low 7 bits shifted by `7 * count`.  `read_u8`
on an exhausted slice is an `unwrap` panic, modelled as `none`. -/

def decodeSizeLoop (size count : Nat) : List Nat → Option (Nat × Nat × List Nat)
  | [] => none
  | b :: rest =>
    let size := size + (b &&& 127) <<< (7 * count)
    let count := count + 1
    if b &&& 128 ≠ 0 then decodeSizeLoop size count rest
    else some (size, count, rest)

def decode_size (delta : List Nat) : Option (Nat × Nat × List Nat) :=
  decodeSizeLoop 0 0 delta

/-- Delta opcodes, as in `enum DeltaOp`: `Insert(usize)` and `Copy(usize, usize)`. -/
inductive DeltaOp where
  | ins (len : Nat) : DeltaOp
  | copy (off len : Nat) : DeltaOp
deriving DecidableEq, Repr

/-- Shared shape of the two mask loops in `DeltaPatcher::next_command`: for each
mask in the list, if `cmd` has that bit, read one byte and add it shifted by
`shift`; `shift` advances by 8 either way. -/
def readCopyField (cmd : Nat) : List Nat → Nat → Nat → List Nat → Option (Nat × List Nat)
  | [], _, acc, d => some (acc, d)
  | m :: ms, shift, acc, d =>
    if cmd &&& m ≠ 0 then
      match d with
      | [] => none
      | b :: d1 => readCopyField cmd ms (shift + 8) (acc + (b <<< shift)) d1
    else readCopyField cmd ms (shift + 8) acc d

/-- `DeltaPatcher::next_command`: reads the opcode byte; high bit set means a
Copy (offset from masks 1,2,4,8 and length from masks 0x10,0x20,0x40),
otherwise an Insert of `cmd` bytes. -/
def next_command (delta : List Nat) : Option (DeltaOp × List Nat) :=
  match delta with
  | [] => none
  | cmd :: d => if cmd &&& 128 ≠ 0 then
      match readCopyField cmd [1, 2, 4, 8] 0 0 d with
      | none => none
      | some (off, d1) =>
        match readCopyField cmd [16, 32, 64] 0 0 d1 with
        | none => none
        | some (len, d2) => some (DeltaOp.copy off len, d2)
    else some (DeltaOp.ins cmd, d)

/-- `DeltaPatcher::run_command`: a Copy collects `source.iter().skip(start).take(length)`
(no bounds check, silently truncating); an Insert reads exactly `len` bytes from the
delta (`read_exact`, panicking when the delta is too short). -/
def run_command (source : List Nat) (delta : List Nat) : DeltaOp → Option (List Nat × List Nat)
  | DeltaOp.copy start len => some ((source.drop start).take len, delta)
  | DeltaOp.ins len =>
    if delta.length < len then none else some (delta.take len, delta.drop len)

/-- Loop body of `DeltaPatcher::run_to_end`: repeatedly take the next command and
run it until the delta is exhausted.  Each iteration consumes at least the opcode
byte, so `fuel := delta.length` always suffices. -/
def runToEnd (source : List Nat) : Nat → List Nat → List Nat → Option (List Nat)
  | _, acc, [] => some acc
  | 0, _, _ :: _ => none
  | fuel + 1, acc, d =>
    match next_command d with
    | none => none
    | some (op, d1) =>
      match run_command source d1 op with
      | none => none
      | some (out, d2) => runToEnd source fuel (acc ++ out) d2

/-- The target length declared by the delta header (second varint). -/
def declaredTargetLen (delta : List Nat) : Option Nat :=
  match decode_size delta with
  | none => none
  | some (_, _, d1) =>
    match decode_size d1 with
    | none => none
    | some (target, _, _) => some target

/-- `delta::patch` via `DeltaPatcher::new` and `run_to_end`.  The header's
source length is decoded but never consulted; after the loop,
`assert_eq!(result.len(), self.target_len)` panics unless the output length
matches the declared target length. -/
def patch (source delta : List Nat) : Option (List Nat) :=
  match decode_size delta with
  | none => none
  | some (_, _, d1) =>
    match decode_size d1 with
    | none => none
    | some (target, _, d2) =>
      match runToEnd source d2.length [] d2 with
      | none => none
      | some out => if out.length = target then some out else none

/-! ## Pack varint decoders (src/packfile/mod.rs)

`ObjectReader::read_offset` decodes the OfsDelta base-relative offset:
`offset = c & 0x7f`, then while the previous byte had its high bit set,
`offset += 1; offset <<= 7; offset += c & 0x7f`. -/

def readOffsetLoop (c acc : Nat) : List Nat → Option (Nat × List Nat)
  | [] => if c &&& 128 ≠ 0 then none else some (acc, [])
  | c1 :: rest1 =>
    if c &&& 128 ≠ 0 then readOffsetLoop c1 (((acc + 1) <<< 7) + (c1 &&& 127)) rest1
    else some (acc, c1 :: rest1)

def read_offset : List Nat → Option (Nat × List Nat)
  | [] => none
  | c :: rest => readOffsetLoop c (c &&& 127) rest

/-- Value obtained by concatenating the low 7 bits of each byte, first byte
most significant (the "concatenation" part of the offset encoding). -/
def ofsConcat (bytes : List Nat) : Nat :=
  bytes.foldl (fun a b => a * 128 + b % 128) 0

/-- Sum `2^7 + 2^14 + ... + 2^(7*n)` added for `n` continuation bytes. -/
def ofsExtra : Nat → Nat
  | 0 => 0
  | n + 1 => ofsExtra n + 128 ^ (n + 1)

/-! ## Pack index (src/packfile/index.rs)

Byte-level readers: `read_exact` and big-endian `read_u32` over a byte slice,
with `none` for an exhausted input (an io error, propagated by `?`).  SHA-1
is the external `store::sha1_hash`; it is threaded through as a function
parameter `sha1` wherever the index code calls it.  The `pack_sha` field is
stored as a hex string in Rust and hex-decoded again on encode; since the
hex codec is an external crate and a bijection on 20-byte arrays, the model
keeps the raw 20 bytes. -/

def readExact (n : Nat) (bytes : List Nat) : Option (List Nat × List Nat) :=
  if bytes.length < n then none else some (bytes.take n, bytes.drop n)

def readU32 : List Nat → Option (Nat × List Nat)
  | b0 :: b1 :: b2 :: b3 :: rest =>
    some (b0 * 2 ^ 24 + b1 * 2 ^ 16 + b2 * 2 ^ 8 + b3, rest)
  | _ => none

def writeU32 (v : Nat) : List Nat :=
  [v / 2 ^ 24 % 256, v / 2 ^ 16 % 256, v / 2 ^ 8 % 256, v % 256]

def readU32s : Nat → List Nat → Option (List Nat × List Nat)
  | 0, bytes => some ([], bytes)
  | n + 1, bytes =>
    match readU32 bytes with
    | none => none
    | some (v, rest) =>
      match readU32s n rest with
      | none => none
      | some (vs, rest1) => some (v :: vs, rest1)

def readShas : Nat → List Nat → Option (List (List Nat) × List Nat)
  | 0, bytes => some ([], bytes)
  | n + 1, bytes =>
    match readExact 20 bytes with
    | none => none
    | some (sha, rest) =>
      match readShas n rest with
      | none => none
      | some (shas, rest1) => some (sha :: shas, rest1)

/-- Magic bytes `[255, 116, 79, 99]` of a v2 pack index. -/
def indexMagic : List Nat := [255, 116, 79, 99]

/-- `PackIndex` with the five tables, fields in source declaration order. -/
structure PackIndex where
  fanout : List Nat
  offsets : List Nat
  shas : List (List Nat)
  checksums : List Nat
  pack_sha : List Nat
deriving DecidableEq, Repr

/-- `PackIndex::parse`: header magic and version asserts, 256-entry fanout,
`size = fanout[255]`, then the sha / checksum / offset tables, the pack
trailer sha and the index's own trailing sha, which is asserted equal to
`sha1` of everything before it.  Returns the residual input as well, so
exact consumption can be stated. -/
def PackIndex.parse (sha1 : List Nat → List Nat) (content : List Nat) :
    Option (PackIndex × List Nat) :=
  let checksum := sha1 (content.take (content.length - 20))
  match readExact 4 content with
  | none => none
  | some (magic, c1) =>
    if magic ≠ indexMagic then none else
    match readU32 c1 with
    | none => none
    | some (version, c2) =>
      if version ≠ 2 then none else
      match readU32s 256 c2 with
      | none => none
      | some (fanout, c3) =>
        match fanout.getLast? with
        | none => none
        | some size =>
          match readShas size c3 with
          | none => none
          | some (shas, c4) =>
            match readU32s size c4 with
            | none => none
            | some (checksums, c5) =>
              match readU32s size c5 with
              | none => none
              | some (offsets, c6) =>
                match readExact 20 c6 with
                | none => none
                | some (pack_sha, c7) =>
                  match readExact 20 c7 with
                  | none => none
                  | some (idx_sha, c8) =>
                    if idx_sha ≠ checksum then none
                    else some (⟨fanout, offsets, shas, checksums, pack_sha⟩, c8)

/-- `PackIndex::encode`: magic, version 2, fanout, shas, checksums, offsets,
pack trailer sha, then `sha1` of the whole buffer so far. -/
def PackIndex.encode (sha1 : List Nat → List Nat) (idx : PackIndex) : List Nat :=
  let buf := indexMagic ++ writeU32 2 ++ (idx.fanout.map writeU32).flatten
    ++ idx.shas.flatten ++ (idx.checksums.map writeU32).flatten
    ++ (idx.offsets.map writeU32).flatten ++ idx.pack_sha
  buf ++ sha1 buf

/-- Concrete empty v2 index bytes used to witness the round-trip theorem:
magic, version 2, 256 zero fanout entries, no objects, all-zero pack and
index trailer hashes. -/
def demoIndexBytes : List Nat :=
  [255, 116, 79, 99, 0, 0, 0, 2] ++ List.replicate 1024 0 ++ List.replicate 40 0

/-- Constant stand-in for the external SHA-1 function in concrete witnesses. -/
def demoSha1 : List Nat → List Nat := fun _ => List.replicate 20 0

/-- The `PackIndex` that `demoIndexBytes` parses to. -/
def demoIndex : PackIndex :=
  ⟨List.replicate 256 0, [], [], [], List.replicate 20 0⟩

/-! ## Ref writer (src/packfile/refs.rs)

Strings are `List Char`; the filesystem effect of `create_refs` /
`update_head` is modelled as the list of `(path, contents)` files written,
in write order.  `Path::file_name` is modelled for the ref-name paths that
occur here: path components are the non-empty, non-"." slash-separated
pieces; the file name is the last component, `none` when there is none or
when it is "..". -/

abbrev Str := List Char

structure GitRef where
  id : Str
  name : Str
deriving DecidableEq, Repr

def splitSlash : Str → List Str
  | [] => [[]]
  | c :: rest =>
    let r := splitSlash rest
    if c = '/' then [] :: r
    else
      match r with
      | [] => [[c]]
      | h :: t => (c :: h) :: t

def fileNameOf (s : Str) : Option Str :=
  let comps := (splitSlash s).filter (fun c => c ≠ [] ∧ c ≠ ['.'])
  match comps.getLast? with
  | none => none
  | some c => if c = ['.', '.'] then none else some c

/-- Suffix `^{}` marking peeled-tag refs (built with `Char.ofNat` so that no
brace appears in a literal). -/
def peelSuffix : Str := ['^', Char.ofNat 123, Char.ofNat 125]

/-- One `create_ref` call: the file `dir/name` with contents `id\n`. -/
def createRef (dir name id : Str) : Str × Str :=
  (dir ++ ('/' :: name), id ++ ['\n'])

/-- `write_refs`: one file per ref under `dir`, named by the last path
component of the ref name (`.expect` panic when there is none). -/
def writeRefs (dir : Str) : List GitRef → Option (List (Str × Str))
  | [] => some []
  | r :: rest =>
    match fileNameOf r.name with
    | none => none
    | some n =>
      match writeRefs dir rest with
      | none => none
      | some ws => some (createRef dir n r.id :: ws)

/-- `create_refs`: drop refs ending in `^{}`, partition on the prefix
`refs/tags` (no trailing slash in the source), write branches under
`refs/remotes/origin` and tags under `refs/tags`. -/
def create_refs (gitdir : Str) (refs : List GitRef) : Option (List (Str × Str)) :=
  let kept := refs.filter fun r => ! (peelSuffix.isSuffixOf r.name)
  let tags := kept.filter fun r => "refs/tags".toList.isPrefixOf r.name
  let branches := kept.filter fun r => ! ("refs/tags".toList.isPrefixOf r.name)
  match writeRefs (gitdir ++ "/refs/remotes/origin".toList) branches with
  | none => none
  | some bw =>
    match writeRefs (gitdir ++ "/refs/tags".toList) tags with
    | none => none
    | some tw => some (bw ++ tw)

/-- `update_head`: when a ref named `HEAD` exists, find the first non-HEAD
ref with the same hash (default `refs/heads/master`), write that ref file
and a symbolic `HEAD` pointing at it. -/
def update_head (gitdir : Str) (refs : List GitRef) : List (Str × Str) :=
  match refs.find? (fun r => r.name == "HEAD".toList) with
  | none => []
  | some head =>
    let trueRef := refs.find? (fun r => (r.name != "HEAD".toList) && (r.id == head.id))
    let relpath :=
      match trueRef with
      | none => "refs/heads/master".toList
      | some r => r.name
    [(gitdir ++ ('/' :: relpath), head.id ++ ['\n']),
      (gitdir ++ "/HEAD".toList, "ref: ".toList ++ relpath ++ ['\n'])]

/-! ## Symbolic ref resolution (src/store/mod.rs)

The filesystem under `<repo>/.git` is the explicit association list `fs`
from path to file contents.  `resolve_ref` / `read_sym_ref` recurse with no
depth counter in the source; the Lean embedding adds a `fuel` argument only
to express that recursion: outer `none` means the fuel ran out (the Rust
code would still be recursing), `some none` is an error or panic
(`File::open` failure or `Sha::from_hex(..).unwrap()`), and `some (some s)`
is a successful resolution to the 40-hex-char sha `s`.  The body of
`read_sym_ref` is inlined into the single fuel-structural function
`resolveRefAux` so that concrete runs evaluate. -/

def isHexDigitChar (c : Char) : Bool :=
  c.isDigit || ('a' ≤ c && c ≤ 'f') || ('A' ≤ c && c ≤ 'F')

/-- `is_hex_sha`: 40 characters, all hex digits. -/
def is_hex_sha (id : Str) : Bool := id.length == 40 && id.all isHexDigitChar

/-- Rust `str::trim`: strip leading and trailing whitespace. -/
def trimStr (s : Str) : Str :=
  ((s.dropWhile Char.isWhitespace).reverse.dropWhile Char.isWhitespace).reverse

/-- Path built by `read_sym_ref`: `<repo>/.git`, plus `refs/heads` for a bare
name, `refs/remotes` for a slashed name not starting with `refs/`, then the
name itself. -/
def refPath (repo name : Str) : Str :=
  let base := repo ++ "/.git".toList
  let dir :=
    if name == "HEAD".toList then base
    else if !(name.contains '/') then base ++ "/refs/heads".toList
    else if !("refs/".toList.isPrefixOf name) then base ++ "/refs/remotes".toList
    else base
  dir ++ ('/' :: name)

/-- Splits at the first occurrence of `marker`: returns the part before it
and the part after it, or `none` when the marker does not occur. -/
def splitAtMarker (marker : Str) : Str → Option (Str × Str)
  | [] => none
  | c :: rest =>
    if marker.isPrefixOf (c :: rest) then some ([], (c :: rest).drop marker.length)
    else
      match splitAtMarker marker rest with
      | none => none
      | some (p, s) => some (c :: p, s)

/-- Rust `contents.split("ref: ").nth(1)`: the segment after the first
`ref: ` occurrence, up to the next occurrence or the end. -/
def refTarget (contents : Str) : Str :=
  match splitAtMarker "ref: ".toList contents with
  | none => []
  | some (_, rest) =>
    match splitAtMarker "ref: ".toList rest with
    | none => rest
    | some (seg, _) => seg

/-- `resolve_ref` with the body of `read_sym_ref` inlined (the source
recursion `read_sym_ref → resolve_ref` has no depth counter; `fuel` counts
`resolve_ref` entries).  A 40-hex name resolves directly; otherwise the ref
file is read, a `ref: ` prefix recurses on the trimmed target, and anything
else must parse as a 40-hex sha. -/
def resolveRefAux (fs : List (Str × Str)) : Nat → Str → Str → Option (Option Str)
  | 0, _, _ => none
  | fuel + 1, repo, name =>
    let trimmed := trimStr name
    if is_hex_sha trimmed then some (some trimmed)
    else
      match fs.lookup (refPath repo trimmed) with
      | none => some none
      | some contents =>
        if "ref: ".toList.isPrefixOf contents then
          resolveRefAux fs fuel repo (trimStr (refTarget contents))
        else if is_hex_sha (trimStr contents) then some (some (trimStr contents))
        else some none

def resolve_ref (fs : List (Str × Str)) (fuel : Nat) (repo name : Str) :
    Option (Option Str) :=
  resolveRefAux fs fuel repo name

/-- Filesystem with a chain of nine symbolic indirections:
`HEAD → refs/c0 → refs/c1 → … → refs/c7 → refs/c8`, where `refs/c8`
holds a direct 40-hex sha. -/
def chainFs : List (Str × Str) :=
  [("r/.git/HEAD".toList, "ref: refs/c0".toList),
   ("r/.git/refs/c0".toList, "ref: refs/c1".toList),
   ("r/.git/refs/c1".toList, "ref: refs/c2".toList),
   ("r/.git/refs/c2".toList, "ref: refs/c3".toList),
   ("r/.git/refs/c3".toList, "ref: refs/c4".toList),
   ("r/.git/refs/c4".toList, "ref: refs/c5".toList),
   ("r/.git/refs/c5".toList, "ref: refs/c6".toList),
   ("r/.git/refs/c6".toList, "ref: refs/c7".toList),
   ("r/.git/refs/c7".toList, "ref: refs/c8".toList),
   ("r/.git/refs/c8".toList, List.replicate 40 'a')]

/-- Filesystem in which `HEAD` is a symbolic ref pointing at itself. -/
def cycleFs : List (Str × Str) :=
  [("r/.git/HEAD".toList, "ref: HEAD".toList)]

/-! ## Staging index writer (src/store/mod.rs)

`IndexEntry` numeric fields are `Nat`; the Rust `as u32` casts at the write
sites truncate, which `writeU32` reproduces by reducing each byte mod 256.
Paths are byte lists (`path.len()` and the sort both operate on bytes).
The `sha` field is the 20-byte object hash. -/

structure GitTime where
  secs : Nat
  nanos : Nat
deriving DecidableEq, Repr

inductive EntryMode where
  | normal : EntryMode
  | executable : EntryMode
  | symlink : EntryMode
  | gitlink : EntryMode
  | subdirectory : EntryMode
deriving DecidableEq, Repr

structure IndexEntry where
  ctime : GitTime
  mtime : GitTime
  device : Nat
  inode : Nat
  mode : Nat
  uid : Nat
  gid : Nat
  size : Nat
  sha : List Nat
  file_mode : EntryMode
  path : List Nat
deriving DecidableEq, Repr

def writeU16 (v : Nat) : List Nat := [v / 256 % 256, v % 256]

/-- `encode_entry`: ten big-endian u32 fields, the 20-byte sha, the 16-bit
flags (`(path.len() & 0xFFF) as u16`), the NUL-terminated path, then NUL
padding to the next multiple of 8 counted from the start of ctime
(`padding_size = 8 - total % 8`, skipped when it equals 8).  A
`SubDirectory` entry is the `unreachable!` arm. -/
def encode_entry (e : IndexEntry) : Option (List Nat) :=
  let flags := e.path.length &&& 4095
  match (match e.file_mode with
    | EntryMode.normal => some (8, e.mode)
    | EntryMode.executable => some (8, e.mode)
    | EntryMode.symlink => some (10, 0)
    | EntryMode.gitlink => some (14, 0)
    | EntryMode.subdirectory => none : Option (Nat × Nat)) with
  | none => none
  | some (encodedType, perms) =>
    let encoded_mode := (encodedType <<< 12) ||| perms
    let body := writeU32 e.ctime.secs ++ writeU32 e.ctime.nanos
      ++ writeU32 e.mtime.secs ++ writeU32 e.mtime.nanos
      ++ writeU32 e.device ++ writeU32 e.inode ++ writeU32 encoded_mode
      ++ writeU32 e.uid ++ writeU32 e.gid ++ writeU32 e.size
      ++ e.sha ++ writeU16 flags ++ e.path ++ [0]
    let padding := 8 - body.length % 8
    some (if padding ≠ 8 then body ++ List.replicate padding 0 else body)

/-- Byte-lexicographic `≤`, the Boolean counterpart of Rust
`a.path.cmp(&b.path)` being `Less` or `Equal`. -/
def lexLe : List Nat → List Nat → Bool
  | [], _ => true
  | _ :: _, [] => false
  | a :: as, b :: bs => decide (a < b) || (a == b && lexLe as bs)

/-- Header `DIRC`, version 2, entry count — each a big-endian u32. -/
def encode_header (numEntries : Nat) : List Nat :=
  writeU32 1145655875 ++ writeU32 2 ++ writeU32 numEntries

structure Index where
  entries : List IndexEntry
  extensions : List (List Nat × List Nat)
deriving DecidableEq, Repr

def encodeEntries : List IndexEntry → Option (List Nat)
  | [] => some []
  | e :: rest =>
    match encode_entry e with
    | none => none
    | some b =>
      match encodeEntries rest with
      | none => none
      | some bs => some (b ++ bs)

/-- Bytes of one index extension: 4-byte signature, u32 length, contents. -/
def encodeExtension (x : List Nat × List Nat) : List Nat :=
  x.1 ++ writeU32 x.2.length ++ x.2

/-- `encode_index`: header, entries sorted by path (stable `sort_by` on
`a.path.cmp(&b.path)`, modelled by `mergeSort` with `lexLe`), extensions,
then the SHA-1 of everything before it. -/
def encode_index (sha1 : List Nat → List Nat) (idx : Index) : Option (List Nat) :=
  let sorted := idx.entries.mergeSort (fun a b => lexLe a.path b.path)
  match encodeEntries sorted with
  | none => none
  | some entryBytes =>
    let body := encode_header idx.entries.length ++ entryBytes
      ++ (idx.extensions.map encodeExtension).flatten
    some (body ++ sha1 body)

/-- Entry with a 4096-byte path, exercising the flags truncation. -/
def longPathEntry : IndexEntry :=
  { ctime := ⟨0, 0⟩, mtime := ⟨0, 0⟩, device := 0, inode := 0, mode := 420,
    uid := 0, gid := 0, size := 0, sha := List.replicate 20 0,
    file_mode := EntryMode.normal, path := List.replicate 4096 97 }

/-- Concrete entry with path `foo` used by the C9 witness. -/
def smallEntry : IndexEntry :=
  { ctime := ⟨0, 0⟩, mtime := ⟨0, 0⟩, device := 0, inode := 0, mode := 420,
    uid := 0, gid := 0, size := 0, sha := List.replicate 20 0,
    file_mode := EntryMode.normal, path := [102, 111, 111] }

/-- The 72 bytes `encode_entry` produces for `smallEntry`. -/
def smallEntryBytes : List Nat :=
  List.replicate 24 0 ++ [0, 0, 129, 164] ++ List.replicate 32 0
    ++ [0, 3, 102, 111, 111, 0] ++ List.replicate 6 0

/-! ## Pack objects and delta-chain lookup (src/packfile/mod.rs)

`GitObject` is the resolved object; `PackObject` the possibly-deltified
entry.  `read_at_offset` (entry parsing, including the external zlib
inflation) is modelled by the `objects` function of a `Pack`, and
`index.find` by `indexFind`, keyed by the raw 20 sha bytes (the hex codec
in `find_by_sha` is an external crate and a bijection). -/

inductive GitObjectType where
  | commit : GitObjectType
  | tree : GitObjectType
  | blob : GitObjectType
  | tag : GitObjectType
deriving DecidableEq, Repr

structure GitObject where
  obj_type : GitObjectType
  content : List Nat
deriving DecidableEq, Repr

/-- `GitObject::patch`: apply `delta::patch` to the content, keeping the
type; a panic inside the delta VM propagates. -/
def GitObject.patch (b : GitObject) (delta : List Nat) : Option GitObject :=
  match RGit.patch b.content delta with
  | none => none
  | some c => some ⟨b.obj_type, c⟩

inductive PackObject where
  | base (obj : GitObject) : PackObject
  | ofsDelta (offset : Nat) (patchBytes : List Nat) : PackObject
  | refDelta (baseSha : List Nat) (patchBytes : List Nat) : PackObject
deriving DecidableEq, Repr

structure Pack where
  objects : Nat → Option PackObject
  indexFind : List Nat → Option Nat

/-- `find_by_sha_unresolved`: index lookup, then `read_at_offset`; an
absent sha is `Ok(None)`, a read failure propagates. -/
def find_by_sha_unresolved (p : Pack) (sha : List Nat) : Option (Option PackObject) :=
  match p.indexFind sha with
  | some off =>
    match p.objects off with
    | none => none
    | some o => some (some o)
  | none => some none

/-- The patch stack at the end of `find_by_offset`: `patches.pop()` applies
the most recently pushed patch first; the model list is kept in pop order
(newest first), so application is head-first. -/
def applyPatches : GitObject → List (List Nat) → Option (Option GitObject)
  | b, [] => some (some b)
  | b, pt :: rest =>
    match b.patch pt with
    | none => none
    | some b2 => applyPatches b2 rest

/-- The `while !object.is_base()` loop of `find_by_offset`.  `fuel` bounds
the chain walk (the Rust loop has no bound; an `OfsDelta` with offset 0
would loop forever).  Outer `none` is a panic or exhausted fuel,
`some none` is `Ok(None)` — in particular the `RefDelta` arm returns
`Ok(None)` when the base sha is missing from the index, with the source
comment "This should be an error that the object is incomplete". -/
def findByOffsetLoop (p : Pack) : Nat → Nat → PackObject → List (List Nat) →
    Option (Option GitObject)
  | 0, _, _, _ => none
  | fuel + 1, offset, obj, patches =>
    match obj with
    | PackObject.base b => applyPatches b patches
    | PackObject.ofsDelta dOff pt =>
      match p.objects (offset - dOff) with
      | none => none
      | some nextObj => findByOffsetLoop p fuel (offset - dOff) nextObj (pt :: patches)
    | PackObject.refDelta sha pt =>
      match find_by_sha_unresolved p sha with
      | none => none
      | some none => some none
      | some (some nextObj) => findByOffsetLoop p fuel offset nextObj (pt :: patches)

def find_by_offset (p : Pack) (fuel offset : Nat) : Option (Option GitObject) :=
  match p.objects offset with
  | none => none
  | some (PackObject.base b) => some (some b)
  | some obj => findByOffsetLoop p fuel offset obj []

def find_by_sha (p : Pack) (fuel : Nat) (sha : List Nat) : Option (Option GitObject) :=
  match p.indexFind sha with
  | some off => find_by_offset p fuel off
  | none => some none

/-- Pack whose only entry, at offset 100 (indexed under sha `[1]`), is a
`RefDelta` naming the absent base sha `[9]`. -/
def brokenPack : Pack :=
  { objects := fun off => if off = 100 then some (PackObject.refDelta [9] [0, 0]) else none,
    indexFind := fun sha => if sha = [1] then some 100 else none }

/-! ## Pack entry iteration (src/packfile/mod.rs, `Objects`)

The iterator's `ObjectReader` plus `remaining` counter is the pre-parsed
list of `(offset, crc32, PackObject)` triples in file order (offsets and
crc32 come from the external zlib/crc computations).  `sha` is the external
SHA-1 over the object's `header ++ content` serialization, passed as a
function.  The HashMaps are association lists with newest-first `lookup`;
`Vec::push` appends at the end and `Vec::pop` removes the last element. -/

abbrev ObjItem := Nat × Nat × GitObject

structure ObjectsState where
  baseObjects : List (List Nat × GitObject)
  baseOffsets : List (Nat × List Nat)
  refDeltas : List (Nat × Nat × PackObject)
  ofsDeltas : List (Nat × Nat × PackObject)
  resolve : Bool
deriving Repr

def initObjectsState : ObjectsState := ⟨[], [], [], [], false⟩

/-- `Objects::resolve_ref_delta`: pop the last buffered ref delta, look its
base up by sha (`.unwrap()` panic when absent), patch, and cache the result
by offset and by sha. -/
def resolve_ref_delta (sha : GitObject → List Nat) (st : ObjectsState) :
    Option (Option (ObjItem × ObjectsState)) :=
  match st.refDeltas.getLast? with
  | none => some none
  | some (offset, checksum, PackObject.refDelta base patchBytes) =>
    match st.baseObjects.lookup base with
    | none => none
    | some baseObj =>
      match baseObj.patch patchBytes with
      | none => none
      | some patched =>
        some (some ((offset, checksum, patched),
          { st with refDeltas := st.refDeltas.dropLast,
                    baseOffsets := (offset, sha patched) :: st.baseOffsets,
                    baseObjects := (sha patched, patched) :: st.baseObjects }))
  | some _ => none

/-- `Objects::resolve_ofs_delta`: pop the last buffered ofs delta, find the
base sha via the offset cache at `offset - base` and the object via the sha
cache (both `.unwrap()`), patch, and cache the result. -/
def resolve_ofs_delta (sha : GitObject → List Nat) (st : ObjectsState) :
    Option (Option (ObjItem × ObjectsState)) :=
  match st.ofsDeltas.getLast? with
  | none => some none
  | some (offset, checksum, PackObject.ofsDelta dOff patchBytes) =>
    match st.baseOffsets.lookup (offset - dOff) with
    | none => none
    | some baseSha =>
      match st.baseObjects.lookup baseSha with
      | none => none
      | some baseObj =>
        match baseObj.patch patchBytes with
        | none => none
        | some patched =>
          some (some ((offset, checksum, patched),
            { st with ofsDeltas := st.ofsDeltas.dropLast,
                      baseOffsets := (offset, sha patched) :: st.baseOffsets,
                      baseObjects := (sha patched, patched) :: st.baseObjects }))
  | some _ => none

/-- `Objects::next`: while entries remain, deltas are buffered in arrival
order and bases are emitted immediately (and cached); once the entries are
exhausted, the one-time `reverse()` of both buffers happens and ref deltas
are resolved before ofs deltas.  Yields the item plus the successor
(remaining entries, state). -/
def objectsNext (sha : GitObject → List Nat) :
    List (Nat × Nat × PackObject) → ObjectsState →
    Option (Option (ObjItem × (List (Nat × Nat × PackObject) × ObjectsState)))
  | (off, crc, PackObject.ofsDelta d pb) :: rest, st =>
    objectsNext sha rest
      { st with ofsDeltas := st.ofsDeltas ++ [(off, crc, PackObject.ofsDelta d pb)] }
  | (off, crc, PackObject.refDelta s pb) :: rest, st =>
    objectsNext sha rest
      { st with refDeltas := st.refDeltas ++ [(off, crc, PackObject.refDelta s pb)] }
  | (off, crc, PackObject.base b) :: rest, st =>
    some (some ((off, crc, b),
      (rest, { st with baseOffsets := (off, sha b) :: st.baseOffsets,
                       baseObjects := (sha b, b) :: st.baseObjects })))
  | [], st =>
    let st1 := if st.resolve then st
      else { st with resolve := true,
                     refDeltas := st.refDeltas.reverse,
                     ofsDeltas := st.ofsDeltas.reverse }
    match resolve_ref_delta sha st1 with
    | none => none
    | some (some r) => some (some (r.1, ([], r.2)))
    | some none =>
      match resolve_ofs_delta sha st1 with
      | none => none
      | some (some r) => some (some (r.1, ([], r.2)))
      | some none => some none

/-- Driving the iterator to completion (Rust `collect()`), with fuel: each
yielded item costs one unit, and `entries.length + 1` units always
suffice. -/
def collectObjects (sha : GitObject → List Nat) :
    Nat → List (Nat × Nat × PackObject) → ObjectsState → Option (List ObjItem)
  | 0, _, _ => none
  | fuel + 1, entries, st =>
    match objectsNext sha entries st with
    | none => none
    | some none => some []
    | some (some (item, (entries1, st1))) =>
      match collectObjects sha fuel entries1 st1 with
      | none => none
      | some items => some (item :: items)

/-- First pass in file order: base objects are emitted (and cached), deltas
are buffered in arrival order. -/
def phase1 (sha : GitObject → List Nat) :
    List (Nat × Nat × PackObject) → ObjectsState → List ObjItem × ObjectsState
  | [], st => ([], st)
  | (off, crc, PackObject.base b) :: rest, st =>
    let st1 := { st with baseOffsets := (off, sha b) :: st.baseOffsets,
                         baseObjects := (sha b, b) :: st.baseObjects }
    let (items, stF) := phase1 sha rest st1
    ((off, crc, b) :: items, stF)
  | (off, crc, PackObject.ofsDelta d pb) :: rest, st =>
    phase1 sha rest
      { st with ofsDeltas := st.ofsDeltas ++ [(off, crc, PackObject.ofsDelta d pb)] }
  | (off, crc, PackObject.refDelta s pb) :: rest, st =>
    phase1 sha rest
      { st with refDeltas := st.refDeltas ++ [(off, crc, PackObject.refDelta s pb)] }

/-- Resolving a list of buffered ref deltas in arrival order, threading the
two caches. -/
def resolveRefList (sha : GitObject → List Nat) :
    List (Nat × Nat × PackObject) → List (List Nat × GitObject) → List (Nat × List Nat) →
    Option (List ObjItem × List (List Nat × GitObject) × List (Nat × List Nat))
  | [], objs, offs => some ([], objs, offs)
  | (off, crc, PackObject.refDelta base pb) :: rest, objs, offs =>
    match objs.lookup base with
    | none => none
    | some b =>
      match b.patch pb with
      | none => none
      | some patched =>
        match resolveRefList sha rest ((sha patched, patched) :: objs)
            ((off, sha patched) :: offs) with
        | none => none
        | some (items, objsF, offsF) => some ((off, crc, patched) :: items, objsF, offsF)
  | _ :: _, _, _ => none

/-- Resolving a list of buffered ofs deltas in arrival order. -/
def resolveOfsList (sha : GitObject → List Nat) :
    List (Nat × Nat × PackObject) → List (List Nat × GitObject) → List (Nat × List Nat) →
    Option (List ObjItem × List (List Nat × GitObject) × List (Nat × List Nat))
  | [], objs, offs => some ([], objs, offs)
  | (off, crc, PackObject.ofsDelta d pb) :: rest, objs, offs =>
    match offs.lookup (off - d) with
    | none => none
    | some baseSha =>
      match objs.lookup baseSha with
      | none => none
      | some b =>
        match b.patch pb with
        | none => none
        | some patched =>
          match resolveOfsList sha rest ((sha patched, patched) :: objs)
              ((off, sha patched) :: offs) with
          | none => none
          | some (items, objsF, offsF) => some ((off, crc, patched) :: items, objsF, offsF)
  | _ :: _, _, _ => none

/-- Declarative description of a full iteration: the phase-1 base items in
file order, then the ref deltas resolved in arrival order, then the ofs
deltas resolved in arrival order. -/
def iterSpec (sha : GitObject → List Nat) (entries : List (Nat × Nat × PackObject)) :
    Option (List ObjItem) :=
  let (baseItems, st) := phase1 sha entries initObjectsState
  match resolveRefList sha st.refDeltas st.baseObjects st.baseOffsets with
  | none => none
  | some (refItems, objs1, offs1) =>
    match resolveOfsList sha st.ofsDeltas objs1 offs1 with
    | none => none
    | some (ofsItems, _, _) => some (baseItems ++ refItems ++ ofsItems)

/-- Dummy SHA-1 stand-in for concrete iterator runs: the content itself
(injective on the demo objects). -/
def demoShaFn : GitObject → List Nat := fun o => o.content

def demoBase : GitObject := ⟨GitObjectType.blob, [65]⟩

/-- One base at offset 10, then two ref deltas against it, arriving at
offsets 20 and 30. -/
def demoEntries : List (Nat × Nat × PackObject) :=
  [(10, 0, PackObject.base demoBase),
   (20, 0, PackObject.refDelta [65] [1, 2, 2, 66, 67]),
   (30, 0, PackObject.refDelta [65] [1, 1, 1, 68])]

/-- Emission of a full run over `demoEntries`: base first, then the two
ref-delta objects in arrival order. -/
def demoOutput : List ObjItem :=
  [(10, 0, demoBase), (20, 0, ⟨GitObjectType.blob, [66, 67]⟩),
   (30, 0, ⟨GitObjectType.blob, [68]⟩)]

/-! ## Theorems -/

theorem and127_eq_mod (c : Nat) : c &&& 127 = c % 128 := by
  have := Nat.and_pow_two_sub_one_eq_mod c 7
  simpa using this

theorem and128_ne_zero_iff {c : Nat} (h : c < 256) : (c &&& 128 ≠ 0) ↔ 128 ≤ c := by
  have h2 : c &&& 2 ^ 7 = (c.testBit 7).toNat * 2 ^ 7 := Nat.and_two_pow c 7
  constructor
  · intro hne
    by_contra hlt
    push_neg at hlt
    have hb : c.testBit 7 = false := by
      rw [Nat.testBit_to_div_mod]
      simp
      omega
    rw [show (128 : Nat) = 2 ^ 7 by norm_num, h2, hb] at hne
    simp at hne
  · intro hle
    have hb : c.testBit 7 = true := by
      rw [Nat.testBit_to_div_mod]
      simp
      omega
    rw [show (128 : Nat) = 2 ^ 7 by norm_num, h2, hb]
    simp

theorem and128_eq_zero {b : Nat} (hb : b < 128) : b &&& 128 = 0 := by
  have h2 : b &&& 2 ^ 7 = (b.testBit 7).toNat * 2 ^ 7 := Nat.and_two_pow b 7
  have hbit : b.testBit 7 = false := by
    rw [Nat.testBit_to_div_mod]
    simp
    omega
  rw [show (128 : Nat) = 2 ^ 7 by norm_num, h2, hbit]
  simp

theorem and128_ne_zero {c : Nat} (h1 : 128 ≤ c) (h2 : c < 256) : c &&& 128 ≠ 0 :=
  (and128_ne_zero_iff h2).mpr h1

theorem foldlConcat_add (l : List Nat) (a d : Nat) :
    l.foldl (fun x y => x * 128 + y % 128) (a + d)
      = l.foldl (fun x y => x * 128 + y % 128) a + d * 128 ^ l.length := by
  induction l generalizing a d with
  | nil => simp
  | cons y t ih =>
    simp only [List.foldl_cons, List.length_cons]
    rw [show (a + d) * 128 + y % 128 = (a * 128 + y % 128) + d * 128 by ring, ih]
    ring

theorem foldl_offsetStep (l : List Nat) (a : Nat) :
    l.foldl (fun x y => (x + 1) * 128 + y % 128) a
      = l.foldl (fun x y => x * 128 + y % 128) a + ofsExtra l.length := by
  induction l generalizing a with
  | nil => simp [ofsExtra]
  | cons y t ih =>
    simp only [List.foldl_cons, List.length_cons]
    rw [ih, show (a + 1) * 128 + y % 128 = (a * 128 + y % 128) + 1 * 128 by ring,
      foldlConcat_add]
    have : ofsExtra (t.length + 1) = ofsExtra t.length + 128 ^ (t.length + 1) := rfl
    rw [this]
    ring

theorem readOffsetLoop_run (bs : List Nat) (b c acc : Nat)
    (hbs : ∀ x ∈ bs, 128 ≤ x ∧ x < 256) (hb : b < 128) (hc : c &&& 128 ≠ 0) :
    readOffsetLoop c acc (bs ++ [b])
      = some ((bs ++ [b]).foldl (fun x y => (x + 1) * 128 + y % 128) acc, []) := by
  induction bs generalizing c acc with
  | nil =>
    simp only [List.nil_append, List.foldl_cons, List.foldl_nil, readOffsetLoop, hc,
      ne_eq, not_false_eq_true, if_true, and128_eq_zero hb, not_true_eq_false, if_false]
    rw [and127_eq_mod, Nat.shiftLeft_eq]
  | cons x t ih =>
    obtain ⟨hx1, hx2⟩ := hbs x (by simp)
    simp only [List.cons_append, readOffsetLoop, hc, ne_eq, not_false_eq_true, if_true,
      List.append_eq]
    rw [ih _ _ (fun y hy => hbs y (by simp [hy])) (and128_ne_zero hx1 hx2)]
    simp only [List.foldl_cons]
    rw [and127_eq_mod, Nat.shiftLeft_eq]

/-- Claim C1 (code_bug): the spec requires a Copy whose 24-bit length field
decodes to zero to expand to exactly 0x10000 = 65536 bytes of the base, and
calls this out as a mandatory special case of the delta format.
`DeltaPatcher::run_command` has no such special case: `Copy(start, 0)` collects
`skip(start).take(0)` = 0 bytes.  Concretely, for a 70000-byte base and the
delta `[240,162,4, 128,128,4, 0x80]` (header: source_len = 70000,
target_len = 65536; a single Copy opcode whose offset and length fields are
absent, so length decodes to 0), the copy contributes nothing and `patch`
panics on the final length assertion instead of emitting 65536 base bytes. -/
theorem copy_length_zero_emits_nothing :
    run_command (List.replicate 70000 1) [] (DeltaOp.copy 0 0) = some ([], []) ∧
    patch (List.replicate 70000 1) [240, 162, 4, 128, 128, 4, 128] = none := by
  constructor
  · rfl
  · rfl

/-- Claim C2 counterexample: the delta `[9, 3, 0, 0x91, 1, 5, 2, 4, 4]` against
base `[7, 8]` declares source_len = 9 (but the base has length 2), contains a
zero-length Insert (opcode 0) and a Copy of 5 bytes starting at offset 1 of the
2-byte base (out of range, silently truncated to 1 byte).  The claim requires
`patch` to fail with `MalformedDelta`; instead it succeeds and returns output. -/
theorem patch_returns_output_on_malformed_delta :
    patch [7, 8] [9, 3, 0, 145, 1, 5, 2, 4, 4] = some [8, 4, 4] := by rfl

/-- Claim C2 amended: `patch` has no `MalformedDelta` error channel (no such
variant exists in the code); it only guarantees, via the final
`assert_eq!(result.len(), self.target_len)`, that any returned output has
exactly the header-declared target length.  Zero-length Inserts are accepted
and the header-declared source length is never compared with the base, as the
second conjunct shows on a base of length 1 with declared source length 0 and
a zero-length Insert opcode. -/
theorem patch_output_length_matches_header :
    (∀ source delta out, patch source delta = some out →
      declaredTargetLen delta = some out.length) ∧
    patch [5] [0, 0, 0] = some [] := by
  constructor
  · intro source delta out h
    unfold patch at h
    unfold declaredTargetLen
    cases h1 : decode_size delta with
    | none => simp [h1] at h
    | some v1 =>
      obtain ⟨s, c1, d1⟩ := v1
      simp only [h1] at h ⊢
      cases h2 : decode_size d1 with
      | none => simp [h2] at h
      | some v2 =>
        obtain ⟨t, c2, d2⟩ := v2
        simp only [h2] at h ⊢
        cases h3 : runToEnd source d2.length [] d2 with
        | none => simp [h3] at h
        | some res =>
          simp only [h3] at h
          by_cases hlen : res.length = t
          · rw [if_pos hlen] at h
            cases h
            simp [hlen]
          · rw [if_neg hlen] at h
            cases h
  · rfl

/-- Witness for the amended C2 theorem at the concrete malformed delta. -/
theorem patch_output_length_matches_header_witness :
    declaredTargetLen [9, 3, 0, 145, 1, 5, 2, 4, 4] = some 3 :=
  patch_output_length_matches_header.1 [7, 8] [9, 3, 0, 145, 1, 5, 2, 4, 4]
    [8, 4, 4] (by rfl)

/-- Claim C3: `ObjectReader::read_offset` decodes a byte sequence of
continuation bytes (high bit set) followed by a final byte as the
concatenation of the low 7 bits of each byte (first byte most significant)
plus `2^7 + 2^14 + ... + 2^(7*n)` for `n` continuation steps — equivalently
each continuation adds 1 and shifts by 7 before adding the new bits.  It is a
different function from the size varint decoder `decode_size`: on the bytes
`[0x80, 0x00]` the offset decoder yields 128 while the size decoder yields 0. -/
theorem read_offset_spec :
    (∀ bs b, (∀ c ∈ bs, 128 ≤ c ∧ c < 256) → b < 128 →
      read_offset (bs ++ [b]) = some (ofsConcat (bs ++ [b]) + ofsExtra bs.length, [])) ∧
    read_offset [128, 0] = some (128, []) ∧ decode_size [128, 0] = some (0, 2, []) := by
  refine ⟨?_, by rfl, by rfl⟩
  intro bs b hbs hb
  cases bs with
  | nil =>
    simp only [List.nil_append, read_offset]
    rw [readOffsetLoop, if_neg]
    · rw [and127_eq_mod]
      simp [ofsConcat, ofsExtra]
    · simp only [ne_eq, not_not]
      rw [show (b &&& 128) = (b % 256) &&& 128 by rw [Nat.mod_eq_of_lt (by omega)]]
      by_contra hne
      have := (and128_ne_zero_iff (c := b % 256) (Nat.mod_lt _ (by norm_num))).mp hne
      omega
  | cons c t =>
    obtain ⟨hc1, hc2⟩ := hbs c (by simp)
    simp only [List.cons_append, read_offset]
    rw [readOffsetLoop_run t b c _ (fun y hy => hbs y (by simp [hy])) hb
      ((and128_ne_zero_iff hc2).mpr hc1)]
    rw [foldl_offsetStep, and127_eq_mod]
    simp only [ofsConcat, List.foldl_cons, List.length_cons, List.length_append,
      List.length_singleton]
    norm_num

/-- Witness for C3 on the two-byte offset encoding `[0x81, 0x01]`. -/
theorem read_offset_spec_witness :
    read_offset [129, 1] = some (ofsConcat [129, 1] + ofsExtra 1, []) := by
  have h := read_offset_spec.1 [129] 1 (by norm_num) (by norm_num)
  simpa using h


theorem readExact_eq {n : Nat} {bytes v rest : List Nat}
    (h : readExact n bytes = some (v, rest)) : bytes = v ++ rest ∧ v.length = n := by
  unfold readExact at h
  split at h
  · cases h
  · cases h
    refine ⟨(List.take_append_drop n bytes).symm, ?_⟩
    simp only [List.length_take]
    omega

theorem readU32_eq {bytes rest : List Nat} {v : Nat} (hb : ∀ b ∈ bytes, b < 256)
    (h : readU32 bytes = some (v, rest)) : bytes = writeU32 v ++ rest := by
  match bytes, h with
  | b0 :: b1 :: b2 :: b3 :: r, h =>
    simp only [readU32, Option.some.injEq, Prod.mk.injEq] at h
    obtain ⟨hv, hr⟩ := h
    subst hv hr
    have h0 := hb b0 (by simp)
    have h1 := hb b1 (by simp)
    have h2 := hb b2 (by simp)
    have h3 := hb b3 (by simp)
    simp only [writeU32, List.cons_append, List.nil_append, List.cons.injEq]
    refine ⟨by omega, by omega, by omega, by omega, trivial⟩

theorem readU32s_eq {n : Nat} {bytes vs rest : List Nat} (hb : ∀ b ∈ bytes, b < 256)
    (h : readU32s n bytes = some (vs, rest)) :
    bytes = (vs.map writeU32).flatten ++ rest ∧ vs.length = n := by
  induction n generalizing bytes vs with
  | zero =>
    simp only [readU32s, Option.some.injEq, Prod.mk.injEq] at h
    obtain ⟨h1, h2⟩ := h
    subst h1 h2
    simp
  | succ m ih =>
    simp only [readU32s] at h
    cases h1 : readU32 bytes with
    | none => rw [h1] at h; cases h
    | some p =>
      obtain ⟨v, r⟩ := p
      simp only [h1] at h
      cases h2 : readU32s m r with
      | none => simp only [h2] at h; cases h
      | some q =>
        obtain ⟨vs1, r1⟩ := q
        simp only [h2] at h
        simp only [Option.some.injEq, Prod.mk.injEq] at h
        obtain ⟨hv, hr⟩ := h
        subst hv hr
        have heq := readU32_eq hb h1
        have hbr : ∀ b ∈ r, b < 256 := by
          intro b hbmem
          exact hb b (by rw [heq]; simp [hbmem])
        obtain ⟨e1, e2⟩ := ih hbr h2
        constructor
        · rw [heq, e1]
          simp
        · simp [e2]

theorem readShas_eq {n : Nat} {bytes rest : List Nat} {shas : List (List Nat)}
    (h : readShas n bytes = some (shas, rest)) :
    bytes = shas.flatten ++ rest := by
  induction n generalizing bytes shas with
  | zero =>
    simp only [readShas, Option.some.injEq, Prod.mk.injEq] at h
    obtain ⟨h1, h2⟩ := h
    subst h1 h2
    simp
  | succ m ih =>
    simp only [readShas] at h
    cases h1 : readExact 20 bytes with
    | none => rw [h1] at h; cases h
    | some p =>
      obtain ⟨sha, r⟩ := p
      simp only [h1] at h
      cases h2 : readShas m r with
      | none => simp only [h2] at h; cases h
      | some q =>
        obtain ⟨shas1, r1⟩ := q
        simp only [h2] at h
        simp only [Option.some.injEq, Prod.mk.injEq] at h
        obtain ⟨hv, hr⟩ := h
        subst hv hr
        rw [(readExact_eq h1).1, ih h2]
        simp

/-- Claim C6: for a byte sequence accepted in full by `PackIndex::parse`
(magic, version and trailing-hash asserts all pass and the input is exactly
consumed), re-encoding the parsed index reproduces the original bytes,
for every choice of the external SHA-1 function. -/
theorem parse_encode_roundtrip (sha1 : List Nat → List Nat) (bytes : List Nat)
    (idx : PackIndex) (hb : ∀ b ∈ bytes, b < 256)
    (hp : PackIndex.parse sha1 bytes = some (idx, [])) :
    PackIndex.encode sha1 idx = bytes := by
  unfold PackIndex.parse at hp
  cases h1 : readExact 4 bytes with
  | none => simp only [h1] at hp; cases hp
  | some p1 =>
  obtain ⟨magic, c1⟩ := p1
  simp only [h1] at hp
  by_cases hm : magic = indexMagic
  · rw [if_neg (by simp [hm])] at hp
    cases h2 : readU32 c1 with
    | none => simp only [h2] at hp; cases hp
    | some p2 =>
    obtain ⟨version, c2⟩ := p2
    simp only [h2] at hp
    by_cases hv : version = 2
    · rw [if_neg (by simp [hv])] at hp
      cases h3 : readU32s 256 c2 with
      | none => simp only [h3] at hp; cases hp
      | some p3 =>
      obtain ⟨fanout, c3⟩ := p3
      simp only [h3] at hp
      cases h4 : fanout.getLast? with
      | none => simp only [h4] at hp; cases hp
      | some size =>
      simp only [h4] at hp
      cases h5 : readShas size c3 with
      | none => simp only [h5] at hp; cases hp
      | some p5 =>
      obtain ⟨shas, c4⟩ := p5
      simp only [h5] at hp
      cases h6 : readU32s size c4 with
      | none => simp only [h6] at hp; cases hp
      | some p6 =>
      obtain ⟨checksums, c5⟩ := p6
      simp only [h6] at hp
      cases h7 : readU32s size c5 with
      | none => simp only [h7] at hp; cases hp
      | some p7 =>
      obtain ⟨offsets, c6⟩ := p7
      simp only [h7] at hp
      cases h8 : readExact 20 c6 with
      | none => simp only [h8] at hp; cases hp
      | some p8 =>
      obtain ⟨pack_sha, c7⟩ := p8
      simp only [h8] at hp
      cases h9 : readExact 20 c7 with
      | none => simp only [h9] at hp; cases hp
      | some p9 =>
      obtain ⟨idx_sha, c8⟩ := p9
      simp only [h9] at hp
      by_cases hcs : idx_sha = sha1 (bytes.take (bytes.length - 20))
      · rw [if_neg (by simp [hcs])] at hp
        simp only [Option.some.injEq, Prod.mk.injEq] at hp
        obtain ⟨hidx, hc8⟩ := hp
        subst hc8
        obtain ⟨e1, l1⟩ := readExact_eq h1
        have hbc1 : ∀ b ∈ c1, b < 256 := fun b hx => hb b (by rw [e1]; simp [hx])
        have e2 := readU32_eq hbc1 h2
        have hbc2 : ∀ b ∈ c2, b < 256 := fun b hx => hbc1 b (by rw [e2]; simp [hx])
        obtain ⟨e3, l3⟩ := readU32s_eq hbc2 h3
        have hbc3 : ∀ b ∈ c3, b < 256 := fun b hx => hbc2 b (by rw [e3]; simp [hx])
        have e4 := readShas_eq h5
        have hbc4 : ∀ b ∈ c4, b < 256 := fun b hx => hbc3 b (by rw [e4]; simp [hx])
        obtain ⟨e5, l5⟩ := readU32s_eq hbc4 h6
        have hbc5 : ∀ b ∈ c5, b < 256 := fun b hx => hbc4 b (by rw [e5]; simp [hx])
        obtain ⟨e6, l6⟩ := readU32s_eq hbc5 h7
        obtain ⟨e7, l7⟩ := readExact_eq h8
        obtain ⟨e8, l8⟩ := readExact_eq h9
        subst hm hv
        have hbytes : bytes =
            (indexMagic ++ writeU32 2 ++ (fanout.map writeU32).flatten
              ++ shas.flatten ++ (checksums.map writeU32).flatten
              ++ (offsets.map writeU32).flatten ++ pack_sha) ++ idx_sha := by
          rw [e1, e2, e3, e4, e5, e6, e7, e8]
          simp [List.append_assoc]
        have hpre : bytes.take (bytes.length - 20) =
            indexMagic ++ writeU32 2 ++ (fanout.map writeU32).flatten
              ++ shas.flatten ++ (checksums.map writeU32).flatten
              ++ (offsets.map writeU32).flatten ++ pack_sha := by
          rw [hbytes]
          rw [List.length_append, l8]
          simp only [Nat.add_sub_cancel]
          exact List.take_left _ _
        subst hidx
        have hsha : sha1 (indexMagic ++ writeU32 2 ++ (fanout.map writeU32).flatten
            ++ shas.flatten ++ (checksums.map writeU32).flatten
            ++ (offsets.map writeU32).flatten ++ pack_sha) = idx_sha := by
          rw [← hpre, ← hcs]
        simp only [PackIndex.encode]
        rw [hsha]
        exact hbytes.symm
      · rw [if_pos (by simp [hcs])] at hp
        cases hp
    · rw [if_pos (by simp [hv])] at hp
      cases hp
  · rw [if_pos (by simp [hm])] at hp
    cases hp

theorem readU32s_replicate_zero (n : Nat) (rest : List Nat) :
    readU32s n (List.replicate (4 * n) 0 ++ rest) = some (List.replicate n 0, rest) := by
  induction n with
  | zero => simp [readU32s]
  | succ m ih =>
    rw [show 4 * (m + 1) = 4 + 4 * m by ring, List.replicate_add, List.append_assoc]
    show readU32s (m + 1) (0 :: 0 :: 0 :: 0 :: (List.replicate (4 * m) 0 ++ rest)) = _
    simp only [readU32s, readU32, ih]
    simp [List.replicate_succ]

theorem demoIndexBytes_parse :
    PackIndex.parse demoSha1 demoIndexBytes = some (demoIndex, []) := by
  have h1 : readExact 4 demoIndexBytes
      = some (indexMagic, [0, 0, 0, 2] ++ (List.replicate 1024 0 ++ List.replicate 40 0)) := by
    simp [readExact, demoIndexBytes, indexMagic, List.append_assoc]
  have h3 : readU32s 256 (List.replicate 1024 0 ++ List.replicate 40 0)
      = some (List.replicate 256 0, List.replicate 40 0) :=
    readU32s_replicate_zero 256 (List.replicate 40 0)
  have h4 : (List.replicate 256 0).getLast? = (some 0 : Option Nat) := by
    rw [List.getLast?_eq_getLast _ (by simp), List.getLast_replicate]
  have h8 : readExact 20 (List.replicate 40 0 : List Nat)
      = some (List.replicate 20 0, List.replicate 20 0) := by
    simp [readExact, List.take_replicate, List.drop_replicate]
  have h9 : readExact 20 (List.replicate 20 0 : List Nat)
      = some (List.replicate 20 0, []) := by
    simp [readExact, List.take_replicate, List.drop_replicate]
  have h2 : readU32 ([0, 0, 0, 2] ++ (List.replicate 1024 0 ++ List.replicate 40 0))
      = some (2, List.replicate 1024 0 ++ List.replicate 40 0) := by
    simp [readU32]
  unfold PackIndex.parse
  simp only [demoSha1, h1]
  rw [if_neg (by simp)]
  simp only [h2]
  rw [if_neg (by simp)]
  simp only [h3]
  simp only [h4]
  simp only [readShas, readU32s, h8, h9]
  rw [if_neg (by simp)]
  simp [demoIndex]

/-- Witness for C6 on a concrete empty v2 index (256 zero fanout entries,
no objects, all-zero pack and index trailer hashes, SHA-1 instantiated by a
constant function). -/
theorem parse_encode_roundtrip_witness :
    PackIndex.encode demoSha1 demoIndex = demoIndexBytes :=
  parse_encode_roundtrip demoSha1 demoIndexBytes demoIndex
    (by
      intro b hbm
      simp only [demoIndexBytes, List.mem_append, List.mem_cons, List.mem_replicate,
        List.not_mem_nil, or_false] at hbm
      casesm* _ ∨ _, _ ∧ _ <;> omega)
    demoIndexBytes_parse

theorem writeRefs_mem {dir : Str} {refs : List GitRef} {ws : List (Str × Str)}
    (h : writeRefs dir refs = some ws) :
    (∀ p c, (p, c) ∈ ws → ∃ r ∈ refs, ∃ n, fileNameOf r.name = some n ∧
        p = dir ++ ('/' :: n) ∧ c = r.id ++ ['\n']) ∧
    (∀ r ∈ refs, ∀ n, fileNameOf r.name = some n →
      (dir ++ ('/' :: n), r.id ++ ['\n']) ∈ ws) := by
  induction refs generalizing ws with
  | nil =>
    simp only [writeRefs, Option.some.injEq] at h
    subst h
    constructor
    · intro p c hm
      cases hm
    · intro r hr
      cases hr
  | cons r rest ih =>
    simp only [writeRefs] at h
    cases h1 : fileNameOf r.name with
    | none => simp only [h1] at h; cases h
    | some n =>
    simp only [h1] at h
    cases h2 : writeRefs dir rest with
    | none => simp only [h2] at h; cases h
    | some ws1 =>
    simp only [h2, Option.some.injEq] at h
    subst h
    obtain ⟨ihA, ihB⟩ := ih h2
    constructor
    · intro p c hm
      rcases List.mem_cons.mp hm with he | ht
      · refine ⟨r, by simp, n, h1, ?_⟩
        simp only [createRef, Prod.mk.injEq] at he
        exact ⟨he.1, he.2⟩
      · obtain ⟨r1, hr1, n1, hn1, hp1, hc1⟩ := ihA p c ht
        exact ⟨r1, by simp [hr1], n1, hn1, hp1, hc1⟩
    · intro r1 hr1 n1 hn1
      rcases List.mem_cons.mp hr1 with he | ht
      · subst he
        rw [h1] at hn1
        cases hn1
        simp [createRef]
      · exact List.mem_cons_of_mem _ (ihB r1 ht n1 hn1)

/-- Claim C7 counterexample: `create_refs` partitions on the prefix
`refs/tags` without the trailing slash, so the ref named `refs/tagsx` — which
does not start with `refs/tags/` and should therefore go under
`refs/remotes/origin/` according to the claim — is written under
`refs/tags/` instead. -/
theorem create_refs_prefix_counterexample :
    create_refs "G".toList [⟨"abc".toList, "refs/tagsx".toList⟩]
      = some [("G/refs/tags/tagsx".toList, "abc\n".toList)] ∧
    "G/refs/tags/tagsx".toList ≠ "G/refs/remotes/origin/tagsx".toList := by
  exact ⟨by decide, by decide⟩

/-- Claim C7 amended: with `refs/tags` (no trailing slash) as the partition
prefix: `create_refs` writes exactly one file per non-peeled ref (none for
refs ending in `^` `{` `}`), under `refs/tags` for names starting with
`refs/tags` and under `refs/remotes/origin` otherwise, named by the last
path component and containing the hex hash plus newline; `update_head`, when
a ref named `HEAD` is present, writes `HEAD` containing `ref: <R>` + newline
for the first non-HEAD ref `R` with the same hash, defaulting to
`refs/heads/master`. -/
theorem create_refs_update_head_spec :
    (∀ gitdir refs out, create_refs gitdir refs = some out →
      (∀ p c, (p, c) ∈ out → ∃ r ∈ refs, peelSuffix.isSuffixOf r.name = false ∧
        ∃ n, fileNameOf r.name = some n ∧ c = r.id ++ ['\n'] ∧
          p = (if "refs/tags".toList.isPrefixOf r.name
            then gitdir ++ "/refs/tags".toList ++ ('/' :: n)
            else gitdir ++ "/refs/remotes/origin".toList ++ ('/' :: n))) ∧
      (∀ r ∈ refs, peelSuffix.isSuffixOf r.name = false →
        ∀ n, fileNameOf r.name = some n →
          ((if "refs/tags".toList.isPrefixOf r.name
            then gitdir ++ "/refs/tags".toList ++ ('/' :: n)
            else gitdir ++ "/refs/remotes/origin".toList ++ ('/' :: n)),
            r.id ++ ['\n']) ∈ out)) ∧
    (∀ gitdir refs head, refs.find? (fun r => r.name == "HEAD".toList) = some head →
      (gitdir ++ "/HEAD".toList,
        "ref: ".toList ++
          (match refs.find? (fun r => (r.name != "HEAD".toList) && (r.id == head.id)) with
            | none => "refs/heads/master".toList
            | some r => r.name) ++ ['\n']) ∈ update_head gitdir refs) := by
  constructor
  · intro gitdir refs out h
    unfold create_refs at h
    cases hbw : writeRefs (gitdir ++ "/refs/remotes/origin".toList)
        (List.filter (fun r => !("refs/tags".toList.isPrefixOf r.name))
          (List.filter (fun r => !(peelSuffix.isSuffixOf r.name)) refs)) with
    | none => simp only [hbw] at h; cases h
    | some bw =>
    simp only [hbw] at h
    cases htw : writeRefs (gitdir ++ "/refs/tags".toList)
        (List.filter (fun r => "refs/tags".toList.isPrefixOf r.name)
          (List.filter (fun r => !(peelSuffix.isSuffixOf r.name)) refs)) with
    | none => simp only [htw] at h; cases h
    | some tw =>
    simp only [htw, Option.some.injEq] at h
    subst h
    obtain ⟨bA, bB⟩ := writeRefs_mem hbw
    obtain ⟨tA, tB⟩ := writeRefs_mem htw
    constructor
    · intro p c hm
      rcases List.mem_append.mp hm with hb | ht
      · obtain ⟨r1, hr1, n1, hn1, hp1, hc1⟩ := bA p c hb
        rw [List.mem_filter] at hr1
        obtain ⟨hr2, hpref⟩ := hr1
        rw [List.mem_filter] at hr2
        obtain ⟨hr3, hpeel⟩ := hr2
        have hpf : ("refs/tags".toList.isPrefixOf r1.name) = false := by
          simpa using hpref
        refine ⟨r1, hr3, by simpa using hpeel, n1, hn1, hc1, ?_⟩
        rw [if_neg (by rw [hpf]; simp), hp1]
      · obtain ⟨r1, hr1, n1, hn1, hp1, hc1⟩ := tA p c ht
        rw [List.mem_filter] at hr1
        obtain ⟨hr2, hpref⟩ := hr1
        rw [List.mem_filter] at hr2
        obtain ⟨hr3, hpeel⟩ := hr2
        have hpt : ("refs/tags".toList.isPrefixOf r1.name) = true := by
          simpa using hpref
        refine ⟨r1, hr3, by simpa using hpeel, n1, hn1, hc1, ?_⟩
        rw [if_pos hpt, hp1]
    · intro r hr hpeel n hn
      cases hpref : "refs/tags".toList.isPrefixOf r.name with
      | true =>
        rw [if_pos rfl]
        apply List.mem_append_right
        have hmem : r ∈ List.filter (fun r => "refs/tags".toList.isPrefixOf r.name)
            (List.filter (fun r => !(peelSuffix.isSuffixOf r.name)) refs) := by
          rw [List.mem_filter]
          refine ⟨?_, by simpa using hpref⟩
          rw [List.mem_filter]
          exact ⟨hr, by simp [hpeel]⟩
        exact tB r hmem n hn
      | false =>
        rw [if_neg (by simp)]
        apply List.mem_append_left
        have hmem : r ∈ List.filter (fun r => !("refs/tags".toList.isPrefixOf r.name))
            (List.filter (fun r => !(peelSuffix.isSuffixOf r.name)) refs) := by
          rw [List.mem_filter]
          refine ⟨?_, by simpa using hpref⟩
          rw [List.mem_filter]
          exact ⟨hr, by simp [hpeel]⟩
        exact bB r hmem n hn
  · intro gitdir refs head hfind
    unfold update_head
    rw [hfind]
    exact List.mem_cons_of_mem _ (List.mem_cons_self _ _)


/-- Witness for the amended C7 theorem: a single branch ref
`refs/heads/main` is written under `refs/remotes/origin`. -/
theorem create_refs_update_head_spec_witness :
    ((if "refs/tags".toList.isPrefixOf "refs/heads/main".toList
      then "G".toList ++ "/refs/tags".toList ++ ('/' :: "main".toList)
      else "G".toList ++ "/refs/remotes/origin".toList ++ ('/' :: "main".toList)),
      "abc".toList ++ ['\n'])
      ∈ [("G/refs/remotes/origin/main".toList, "abc\n".toList)] :=
  (create_refs_update_head_spec.1 "G".toList
    [⟨"abc".toList, "refs/heads/main".toList⟩]
    [("G/refs/remotes/origin/main".toList, "abc\n".toList)] (by decide)).2
    ⟨"abc".toList, "refs/heads/main".toList⟩ (by decide) (by decide)
    "main".toList (by decide)

/-- Claim C8 counterexample: resolution has no depth bound.  On `chainFs`,
whose `HEAD` reaches a direct sha only after nine symbolic indirections
(more than 8), `resolve_ref` succeeds, while the claim requires failure with
`RefCycle` for chains longer than 8. -/
theorem resolve_ref_depth_counterexample :
    resolve_ref chainFs 20 "r".toList "HEAD".toList
      = some (some (List.replicate 40 'a')) := by decide

/-- Claim C8 amended: the resolution process repeats whenever a ref file
begins with `ref: `, but with no depth bound at all (there is no max depth 8
and no `RefCycle` error in the code): arbitrarily long symbolic chains
resolve successfully, and on a cyclic chain the recursion never terminates —
for every amount of fuel the run is still recursing. -/
theorem resolve_ref_no_depth_bound :
    (∀ fuel, resolve_ref cycleFs fuel "r".toList "HEAD".toList = none) ∧
    resolve_ref chainFs 20 "r".toList "HEAD".toList
      = some (some (List.replicate 40 'a')) := by
  constructor
  · intro fuel
    induction fuel with
    | zero => rfl
    | succ n ih => exact ih
  · decide

theorem lexLe_total (a b : List Nat) : (lexLe a b || lexLe b a) = true := by
  induction a generalizing b with
  | nil => simp [lexLe]
  | cons x xs ih =>
    cases b with
    | nil => simp [lexLe]
    | cons y ys =>
      simp only [lexLe, Bool.or_eq_true, decide_eq_true_eq, Bool.and_eq_true, beq_iff_eq]
      rcases Nat.lt_trichotomy x y with h | h | h
      · exact Or.inl (Or.inl h)
      · subst h
        rcases Bool.or_eq_true _ _ |>.mp (ih ys) with h1 | h1
        · exact Or.inl (Or.inr ⟨rfl, h1⟩)
        · exact Or.inr (Or.inr ⟨rfl, h1⟩)
      · exact Or.inr (Or.inl h)

theorem lexLe_trans (a b c : List Nat) (h1 : lexLe a b = true) (h2 : lexLe b c = true) :
    lexLe a c = true := by
  induction a generalizing b c with
  | nil => simp [lexLe]
  | cons x xs ih =>
    cases b with
    | nil => simp [lexLe] at h1
    | cons y ys =>
      cases c with
      | nil => simp [lexLe] at h2
      | cons z zs =>
        simp only [lexLe, Bool.or_eq_true, decide_eq_true_eq, Bool.and_eq_true,
          beq_iff_eq] at h1 h2 ⊢
        rcases h1 with h1 | ⟨he1, hr1⟩
        · rcases h2 with h2 | ⟨he2, hr2⟩
          · exact Or.inl (by omega)
          · subst he2; exact Or.inl h1
        · subst he1
          rcases h2 with h2 | ⟨he2, hr2⟩
          · exact Or.inl h2
          · subst he2; exact Or.inr ⟨rfl, ih ys zs hr1 hr2⟩

theorem drop_take_at (pre mid tail : List Nat) (hpre : pre.length = 60)
    (hmid : mid.length = 2) : (((pre ++ mid) ++ tail).drop 60).take 2 = mid := by
  rw [List.append_assoc, ← hpre, List.drop_left, ← hmid, List.take_left]

theorem prefix60_length (a b c d e f g h i j : Nat) (sha : List Nat)
    (hs : sha.length = 20) :
    (writeU32 a ++ writeU32 b ++ writeU32 c ++ writeU32 d ++ writeU32 e ++ writeU32 f
      ++ writeU32 g ++ writeU32 h ++ writeU32 i ++ writeU32 j ++ sha).length = 60 := by
  simp [writeU32, List.length_append, hs]

theorem encode_entry_isSome (e : IndexEntry) (h : e.file_mode ≠ EntryMode.subdirectory) :
    ∃ out, encode_entry e = some out := by
  unfold encode_entry
  cases hfm : e.file_mode
  · exact ⟨_, rfl⟩
  · exact ⟨_, rfl⟩
  · exact ⟨_, rfl⟩
  · exact ⟨_, rfl⟩
  · exact absurd hfm h

theorem encode_entry_flags_field (e : IndexEntry) (out : List Nat)
    (hsha : e.sha.length = 20) (h : encode_entry e = some out) :
    (out.drop 60).take 2 = writeU16 (e.path.length &&& 4095) := by
  unfold encode_entry at h
  cases hfm : e.file_mode <;> simp only [hfm] at h <;>
    [skip; skip; skip; skip; exact absurd h (by simp)] <;>
  · simp only [Option.some.injEq] at h
    subst h
    split
    · rw [List.append_assoc _ e.path [0], List.append_assoc _ (e.path ++ [0]) _]
      exact drop_take_at _ _ _ (prefix60_length _ _ _ _ _ _ _ _ _ _ _ hsha)
        (by simp [writeU16])
    · rw [List.append_assoc _ e.path [0]]
      exact drop_take_at _ _ _ (prefix60_length _ _ _ _ _ _ _ _ _ _ _ hsha)
        (by simp [writeU16])

/-- Claim C9 counterexample: for a path of 4096 bytes the encoded flags field
is `4096 & 0xFFF = 0` (bytes `[0, 0]`), not `min(4096, 0xFFF) = 0xFFF`
(bytes `[15, 255]`) as the claim requires. -/
theorem encode_entry_flags_counterexample :
    (encode_entry longPathEntry).map (fun l => (l.drop 60).take 2) = some [0, 0] ∧
    [(0 : Nat), 0] ≠ writeU16 (min 4096 4095) := by
  constructor
  · obtain ⟨out, hout⟩ := encode_entry_isSome longPathEntry (by decide)
    rw [hout, Option.map_some', encode_entry_flags_field longPathEntry out
      (by rw [show longPathEntry.sha = List.replicate 20 0 from rfl]; simp) hout]
    rw [show longPathEntry.path = List.replicate 4096 97 from rfl, List.length_replicate]
    decide
  · decide

/-- Claim C9 amended: entries are emitted sorted by path bytewise ascending
regardless of insertion order (a sorted permutation of the entry list);
each encoded entry's total length from the start of ctime through the
padding is a multiple of 8; and the 16-bit flags field holds
`pathlen & 0xFFF` — i.e. `pathlen mod 4096`, which agrees with
`min(pathlen, 0xFFF)` only for paths shorter than 4096 bytes. -/
theorem encode_index_sorted_padded_masked :
    (∀ e out, encode_entry e = some out → out.length % 8 = 0) ∧
    (∀ e out, e.sha.length = 20 → encode_entry e = some out →
      (out.drop 60).take 2 = writeU16 (e.path.length &&& 4095)) ∧
    (∀ sha1 idx out, encode_index sha1 idx = some out →
      ∃ sorted, sorted.Perm idx.entries ∧
        List.Pairwise (fun a b => lexLe a.path b.path = true) sorted ∧
        ∃ entryBytes, encodeEntries sorted = some entryBytes ∧
          out = (encode_header idx.entries.length ++ entryBytes
              ++ (idx.extensions.map encodeExtension).flatten)
            ++ sha1 (encode_header idx.entries.length ++ entryBytes
              ++ (idx.extensions.map encodeExtension).flatten)) := by
  refine ⟨?_, ?_, ?_⟩
  · intro e out h
    unfold encode_entry at h
    cases hfm : e.file_mode <;> simp only [hfm] at h <;>
      [skip; skip; skip; skip; exact absurd h (by simp)] <;>
    · simp only [Option.some.injEq] at h
      subst h
      split
      · simp only [List.length_append, List.length_replicate]
        omega
      · next hpad => omega
  · exact fun e out hsha h => encode_entry_flags_field e out hsha h
  · intro sha1 idx out h
    unfold encode_index at h
    cases he : encodeEntries (idx.entries.mergeSort fun a b => lexLe a.path b.path) with
    | none => simp only [he] at h; cases h
    | some entryBytes =>
      simp only [he, Option.some.injEq] at h
      refine ⟨idx.entries.mergeSort (fun a b => lexLe a.path b.path),
        List.mergeSort_perm _ _, ?_, entryBytes, he, ?_⟩
      · exact List.sorted_mergeSort
          (fun a b c hab hbc => lexLe_trans a.path b.path c.path hab hbc)
          (fun a b => lexLe_total a.path b.path) idx.entries
      · rw [← h]

/-- Witness for the amended C9 theorem: the encoding of a concrete
three-byte-path entry is padded to 72 bytes, a multiple of 8. -/
theorem encode_index_sorted_padded_masked_witness :
    smallEntryBytes.length % 8 = 0 :=
  encode_index_sorted_padded_masked.1 smallEntry smallEntryBytes (by decide)


theorem objectsNext_flip (sha : GitObject → List Nat) (st : ObjectsState)
    (h : st.resolve = false) :
    objectsNext sha [] st = objectsNext sha []
      { st with resolve := true, refDeltas := st.refDeltas.reverse,
                ofsDeltas := st.ofsDeltas.reverse } := by
  simp [objectsNext, h]

theorem collectObjects_flip (sha : GitObject → List Nat) (fuel : Nat)
    (st : ObjectsState) (h : st.resolve = false) :
    collectObjects sha fuel [] st = collectObjects sha fuel []
      { st with resolve := true, refDeltas := st.refDeltas.reverse,
                ofsDeltas := st.ofsDeltas.reverse } := by
  cases fuel with
  | zero => rfl
  | succ f => simp only [collectObjects, objectsNext_flip sha st h]

theorem objectsNext_nil_resolved (sha : GitObject → List Nat)
    (objs : List (List Nat × GitObject)) (offs : List (Nat × List Nat))
    (rd od : List (Nat × Nat × PackObject)) :
    objectsNext sha [] ⟨objs, offs, rd, od, true⟩ =
      match resolve_ref_delta sha ⟨objs, offs, rd, od, true⟩ with
      | none => none
      | some (some r) => some (some (r.1, ([], r.2)))
      | some none =>
        match resolve_ofs_delta sha ⟨objs, offs, rd, od, true⟩ with
        | none => none
        | some (some r) => some (some (r.1, ([], r.2)))
        | some none => some none := by
  simp [objectsNext]

theorem resolve_ref_delta_nil (sha : GitObject → List Nat)
    (objs : List (List Nat × GitObject)) (offs : List (Nat × List Nat))
    (od : List (Nat × Nat × PackObject)) :
    resolve_ref_delta sha ⟨objs, offs, [], od, true⟩ = some none := by
  simp [resolve_ref_delta]

theorem resolve_ofs_delta_nil (sha : GitObject → List Nat)
    (objs : List (List Nat × GitObject)) (offs : List (Nat × List Nat))
    (rd : List (Nat × Nat × PackObject)) :
    resolve_ofs_delta sha ⟨objs, offs, rd, [], true⟩ = some none := by
  simp [resolve_ofs_delta]

theorem resolve_ref_step (sha : GitObject → List Nat)
    (objs : List (List Nat × GitObject)) (offs : List (Nat × List Nat))
    (RR od : List (Nat × Nat × PackObject)) (off crc : Nat) (s pb : List Nat) :
    resolve_ref_delta sha ⟨objs, offs, RR ++ [(off, crc, PackObject.refDelta s pb)], od, true⟩
      = match objs.lookup s with
        | none => none
        | some b =>
          match b.patch pb with
          | none => none
          | some patched => some (some ((off, crc, patched),
              ⟨(sha patched, patched) :: objs, (off, sha patched) :: offs, RR, od, true⟩)) := by
  simp [resolve_ref_delta, List.getLast?_concat, List.dropLast_concat]

theorem resolve_ofs_step (sha : GitObject → List Nat)
    (objs : List (List Nat × GitObject)) (offs : List (Nat × List Nat))
    (rd RR : List (Nat × Nat × PackObject)) (off crc d : Nat) (pb : List Nat) :
    resolve_ofs_delta sha ⟨objs, offs, rd, RR ++ [(off, crc, PackObject.ofsDelta d pb)], true⟩
      = match offs.lookup (off - d) with
        | none => none
        | some baseSha =>
          match objs.lookup baseSha with
          | none => none
          | some b =>
            match b.patch pb with
            | none => none
            | some patched => some (some ((off, crc, patched),
                ⟨(sha patched, patched) :: objs, (off, sha patched) :: offs, rd, RR, true⟩)) := by
  simp [resolve_ofs_delta, List.getLast?_concat, List.dropLast_concat]

theorem resolve_ref_step_bad (sha : GitObject → List Nat)
    (objs : List (List Nat × GitObject)) (offs : List (Nat × List Nat))
    (RR od : List (Nat × Nat × PackObject)) (e : Nat × Nat × PackObject)
    (h : ∀ s pb, e.2.2 ≠ PackObject.refDelta s pb) :
    resolve_ref_delta sha ⟨objs, offs, RR ++ [e], od, true⟩ = none := by
  obtain ⟨off, crc, po⟩ := e
  cases po with
  | base b => simp [resolve_ref_delta, List.getLast?_concat]
  | ofsDelta d pb => simp [resolve_ref_delta, List.getLast?_concat]
  | refDelta s pb => exact absurd rfl (h s pb)

theorem resolve_ofs_step_bad (sha : GitObject → List Nat)
    (objs : List (List Nat × GitObject)) (offs : List (Nat × List Nat))
    (rd RR : List (Nat × Nat × PackObject)) (e : Nat × Nat × PackObject)
    (h : ∀ d pb, e.2.2 ≠ PackObject.ofsDelta d pb) :
    resolve_ofs_delta sha ⟨objs, offs, rd, RR ++ [e], true⟩ = none := by
  obtain ⟨off, crc, po⟩ := e
  cases po with
  | base b => simp [resolve_ofs_delta, List.getLast?_concat]
  | refDelta s pb => simp [resolve_ofs_delta, List.getLast?_concat]
  | ofsDelta d pb => exact absurd rfl (h d pb)

theorem collect_resolve_ofs (sha : GitObject → List Nat)
    (O : List (Nat × Nat × PackObject)) (objs : List (List Nat × GitObject))
    (offs : List (Nat × List Nat)) (fuel : Nat) (hf : fuel ≥ O.length + 1) :
    collectObjects sha fuel [] ⟨objs, offs, [], O.reverse, true⟩ =
      match resolveOfsList sha O objs offs with
      | none => none
      | some (items, _, _) => some items := by
  induction O generalizing objs offs fuel with
  | nil =>
    cases fuel with
    | zero => omega
    | succ f =>
      simp [collectObjects, objectsNext_nil_resolved, resolve_ref_delta_nil,
        resolve_ofs_delta_nil, resolveOfsList]
  | cons x R ih =>
    cases fuel with
    | zero => omega
    | succ f =>
      obtain ⟨off, crc, po⟩ := x
      rw [List.reverse_cons]
      simp only [collectObjects, objectsNext_nil_resolved, resolve_ref_delta_nil]
      cases po with
      | base b =>
        rw [resolve_ofs_step_bad sha objs offs [] R.reverse
          (off, crc, PackObject.base b) (by intro d pb; simp)]
        simp [resolveOfsList]
      | refDelta s pb =>
        rw [resolve_ofs_step_bad sha objs offs [] R.reverse
          (off, crc, PackObject.refDelta s pb) (by intro d pb; simp)]
        simp [resolveOfsList]
      | ofsDelta d pb =>
        rw [resolve_ofs_step]
        simp only [resolveOfsList]
        cases h1 : offs.lookup (off - d) with
        | none => simp
        | some baseSha =>
          dsimp only
          cases h2 : objs.lookup baseSha with
          | none => simp
          | some b =>
            dsimp only
            cases h3 : b.patch pb with
            | none => simp
            | some patched =>
              dsimp only
              rw [ih ((sha patched, patched) :: objs) ((off, sha patched) :: offs) f
                (by simp at hf ⊢; omega)]
              cases h4 : resolveOfsList sha R ((sha patched, patched) :: objs)
                  ((off, sha patched) :: offs) with
              | none => simp
              | some r =>
                obtain ⟨items, objsF, offsF⟩ := r
                simp

theorem collect_resolve_ref (sha : GitObject → List Nat)
    (R O : List (Nat × Nat × PackObject)) (objs : List (List Nat × GitObject))
    (offs : List (Nat × List Nat)) (fuel : Nat)
    (hf : fuel ≥ R.length + O.length + 1) :
    collectObjects sha fuel [] ⟨objs, offs, R.reverse, O.reverse, true⟩ =
      match resolveRefList sha R objs offs with
      | none => none
      | some (items, objs1, offs1) =>
        match resolveOfsList sha O objs1 offs1 with
        | none => none
        | some (items2, _, _) => some (items ++ items2) := by
  induction R generalizing objs offs fuel with
  | nil =>
    rw [show ([] : List (Nat × Nat × PackObject)).reverse = [] from rfl,
      collect_resolve_ofs sha O objs offs fuel (by simpa using hf)]
    simp only [resolveRefList]
    cases h4 : resolveOfsList sha O objs offs with
    | none => simp
    | some r =>
      obtain ⟨items, objsF, offsF⟩ := r
      simp
  | cons x R1 ih =>
    cases fuel with
    | zero => omega
    | succ f =>
      obtain ⟨off, crc, po⟩ := x
      rw [List.reverse_cons]
      simp only [collectObjects, objectsNext_nil_resolved]
      cases po with
      | base b =>
        rw [resolve_ref_step_bad sha objs offs R1.reverse O.reverse
          (off, crc, PackObject.base b) (by intro s pb; simp)]
        simp [resolveRefList]
      | ofsDelta d pb =>
        rw [resolve_ref_step_bad sha objs offs R1.reverse O.reverse
          (off, crc, PackObject.ofsDelta d pb) (by intro s pb; simp)]
        simp [resolveRefList]
      | refDelta s pb =>
        rw [resolve_ref_step]
        simp only [resolveRefList]
        cases h1 : objs.lookup s with
        | none => simp
        | some b =>
          dsimp only
          cases h2 : b.patch pb with
          | none => simp
          | some patched =>
            dsimp only
            rw [ih ((sha patched, patched) :: objs) ((off, sha patched) :: offs) f
              (by simp at hf ⊢; omega)]
            cases h3 : resolveRefList sha R1 ((sha patched, patched) :: objs)
                ((off, sha patched) :: offs) with
            | none => simp
            | some r =>
              obtain ⟨items, objs1, offs1⟩ := r
              dsimp only
              cases h4 : resolveOfsList sha O objs1 offs1 with
              | none => simp
              | some r2 =>
                obtain ⟨items2, objsF, offsF⟩ := r2
                simp

theorem collect_phase1 (sha : GitObject → List Nat)
    (entries : List (Nat × Nat × PackObject)) (st : ObjectsState) (fuel : Nat)
    (hres : st.resolve = false)
    (hf : fuel ≥ entries.length + st.refDeltas.length + st.ofsDeltas.length + 1) :
    collectObjects sha fuel entries st =
      match phase1 sha entries st with
      | (items, st1) =>
        match resolveRefList sha st1.refDeltas st1.baseObjects st1.baseOffsets with
        | none => none
        | some (refItems, objs1, offs1) =>
          match resolveOfsList sha st1.ofsDeltas objs1 offs1 with
          | none => none
          | some (ofsItems, _, _) => some (items ++ refItems ++ ofsItems) := by
  induction entries generalizing st fuel with
  | nil =>
    obtain ⟨objs, offs, rd, od, res⟩ := st
    simp only at hres
    subst hres
    rw [collectObjects_flip sha fuel ⟨objs, offs, rd, od, false⟩ rfl]
    have hflip : ({ (⟨objs, offs, rd, od, false⟩ : ObjectsState) with
          resolve := true,
          refDeltas := rd.reverse,
          ofsDeltas := od.reverse } : ObjectsState)
        = ⟨objs, offs, rd.reverse, od.reverse, true⟩ := rfl
    rw [hflip, collect_resolve_ref sha rd od objs offs fuel (by simp at hf ⊢; omega)]
    simp only [phase1]
    cases hr : resolveRefList sha rd objs offs with
    | none => simp
    | some r =>
      obtain ⟨refItems, objs1, offs1⟩ := r
      dsimp only
      cases ho : resolveOfsList sha od objs1 offs1 with
      | none => simp
      | some r2 =>
        obtain ⟨ofsItems, o2, f2⟩ := r2
        simp
  | cons e rest ih =>
    obtain ⟨off, crc, po⟩ := e
    cases fuel with
    | zero => omega
    | succ f =>
      cases po with
      | base b =>
        have hstep : collectObjects sha (f + 1) ((off, crc, PackObject.base b) :: rest) st
            = match collectObjects sha f rest
                { st with baseOffsets := (off, sha b) :: st.baseOffsets,
                          baseObjects := (sha b, b) :: st.baseObjects } with
              | none => none
              | some items => some ((off, crc, b) :: items) := by
          simp [collectObjects, objectsNext]
        rw [hstep, ih _ f (by simpa using hres) (by simp at hf ⊢; omega)]
        simp only [phase1]
        cases hp : phase1 sha rest { st with baseOffsets := (off, sha b) :: st.baseOffsets, baseObjects := (sha b, b) :: st.baseObjects } with
        | mk items1 stF =>
          dsimp only
          cases hr : resolveRefList sha stF.refDeltas stF.baseObjects stF.baseOffsets with
          | none => simp
          | some r =>
            obtain ⟨refItems, objs1, offs1⟩ := r
            dsimp only
            cases ho : resolveOfsList sha stF.ofsDeltas objs1 offs1 with
            | none => simp
            | some r2 =>
              obtain ⟨ofsItems, o2, f2⟩ := r2
              simp
      | ofsDelta d pb =>
        have hstep : collectObjects sha (f + 1)
              ((off, crc, PackObject.ofsDelta d pb) :: rest) st
            = collectObjects sha (f + 1) rest
                { st with ofsDeltas := st.ofsDeltas ++ [(off, crc, PackObject.ofsDelta d pb)] } :=
          rfl
        rw [hstep, ih _ (f + 1) (by simpa using hres) (by simp at hf ⊢; omega)]
        rfl
      | refDelta s pb =>
        have hstep : collectObjects sha (f + 1)
              ((off, crc, PackObject.refDelta s pb) :: rest) st
            = collectObjects sha (f + 1) rest
                { st with refDeltas := st.refDeltas ++ [(off, crc, PackObject.refDelta s pb)] } :=
          rfl
        rw [hstep, ih _ (f + 1) (by simpa using hres) (by simp at hf ⊢; omega)]
        rfl

theorem collectObjects_eq_iterSpec (sha : GitObject → List Nat)
    (entries : List (Nat × Nat × PackObject)) (fuel : Nat)
    (hf : fuel ≥ entries.length + 1) :
    collectObjects sha fuel entries initObjectsState = iterSpec sha entries := by
  rw [collect_phase1 sha entries initObjectsState fuel rfl (by simpa using hf)]
  unfold iterSpec
  cases hp : phase1 sha entries initObjectsState with
  | mk items st1 => rfl

/-- Claim C4 (code_bug): when the delta chain walk of a lookup hits a
RefDelta whose base sha the index does not contain, `find_by_offset` and
`find_by_sha` return `Ok(None)` — indistinguishable from "object not in the
pack" — instead of failing with a fatal ChainIncomplete error (no such
error kind exists); the source comments the very spot with "This should be
an error that the object is incomplete".  `brokenPack` holds exactly one
entry, a RefDelta at offset 100 naming the absent base sha `[9]`. -/
theorem missing_ref_delta_base_not_an_error :
    find_by_offset brokenPack 5 100 = some none ∧
    find_by_sha brokenPack 5 [1] = some none := by
  constructor
  · decide
  · decide

/-- Claim C10: in a full iterator run the emission sequence decomposes as
the phase-1 base objects (file order), then all objects resolved from the
buffered RefDelta entries, then all objects resolved from the buffered
OfsDelta entries — the RefDelta buffer is always exhausted before the
OfsDelta buffer is touched. -/
theorem ref_deltas_resolved_before_ofs_deltas (sha : GitObject → List Nat)
    (entries : List (Nat × Nat × PackObject)) (fuel : Nat) (out : List ObjItem)
    (hf : fuel ≥ entries.length + 1)
    (h : collectObjects sha fuel entries initObjectsState = some out) :
    ∃ refItems objs1 offs1 ofsItems objs2 offs2,
      resolveRefList sha (phase1 sha entries initObjectsState).2.refDeltas
          (phase1 sha entries initObjectsState).2.baseObjects
          (phase1 sha entries initObjectsState).2.baseOffsets
        = some (refItems, objs1, offs1) ∧
      resolveOfsList sha (phase1 sha entries initObjectsState).2.ofsDeltas objs1 offs1
        = some (ofsItems, objs2, offs2) ∧
      out = (phase1 sha entries initObjectsState).1 ++ refItems ++ ofsItems := by
  rw [collect_phase1 sha entries initObjectsState fuel rfl (by simpa using hf)] at h
  cases hp : phase1 sha entries initObjectsState with
  | mk items st1 =>
    rw [hp] at h
    dsimp only at h ⊢
    cases hr : resolveRefList sha st1.refDeltas st1.baseObjects st1.baseOffsets with
    | none => rw [hr] at h; cases h
    | some r =>
      obtain ⟨refItems, objs1, offs1⟩ := r
      rw [hr] at h
      dsimp only at h
      cases ho : resolveOfsList sha st1.ofsDeltas objs1 offs1 with
      | none => rw [ho] at h; cases h
      | some r2 =>
        obtain ⟨ofsItems, objs2, offs2⟩ := r2
        rw [ho] at h
        dsimp only at h
        cases h
        exact ⟨refItems, objs1, offs1, ofsItems, objs2, offs2, rfl, ho, rfl⟩

/-- Witness for C10 on the concrete three-entry pack `demoEntries`. -/
theorem ref_deltas_resolved_before_ofs_deltas_witness :
    ∃ refItems objs1 offs1 ofsItems objs2 offs2,
      resolveRefList demoShaFn (phase1 demoShaFn demoEntries initObjectsState).2.refDeltas
          (phase1 demoShaFn demoEntries initObjectsState).2.baseObjects
          (phase1 demoShaFn demoEntries initObjectsState).2.baseOffsets
        = some (refItems, objs1, offs1) ∧
      resolveOfsList demoShaFn (phase1 demoShaFn demoEntries initObjectsState).2.ofsDeltas
          objs1 offs1
        = some (ofsItems, objs2, offs2) ∧
      demoOutput = (phase1 demoShaFn demoEntries initObjectsState).1 ++ refItems ++ ofsItems :=
  ref_deltas_resolved_before_ofs_deltas demoShaFn demoEntries 10 demoOutput
    (by decide) (by decide)

/-- Claim C5 counterexample: on `demoEntries` (one base, then ref deltas
arriving at offsets 20 and 30) the resolved deltas are emitted in arrival
order — offset 20 before offset 30, with distinct contents — not in reverse
order of arrival as the claim states.  The buffer is reversed once and then
consumed by `pop` from the back, which restores arrival order. -/
theorem objects_emission_order_counterexample :
    collectObjects demoShaFn 10 demoEntries initObjectsState = some demoOutput ∧
    demoOutput ≠ [(10, 0, demoBase), (30, 0, ⟨GitObjectType.blob, [68]⟩),
      (20, 0, ⟨GitObjectType.blob, [66, 67]⟩)] := by
  constructor
  · decide
  · decide

/-- Claim C5 amended: iteration emits all base (non-delta) objects first in
file order, then the RefDelta-resolved objects in arrival order, then the
OfsDelta-resolved objects in arrival order (not reverse-arrival: the single
`reverse()` followed by `pop` from the back restores arrival order); each
resolved object is cached by offset and by sha so later entries in the same
chain can find it. -/
theorem objects_iteration_spec :
    (∀ (sha : GitObject → List Nat) entries fuel, fuel ≥ entries.length + 1 →
      collectObjects sha fuel entries initObjectsState = iterSpec sha entries) ∧
    (∀ (sha : GitObject → List Nat) st off crc o st1,
      resolve_ref_delta sha st = some (some ((off, crc, o), st1)) →
      st1.baseObjects.lookup (sha o) = some o ∧
        st1.baseOffsets.lookup off = some (sha o)) ∧
    (∀ (sha : GitObject → List Nat) st off crc o st1,
      resolve_ofs_delta sha st = some (some ((off, crc, o), st1)) →
      st1.baseObjects.lookup (sha o) = some o ∧
        st1.baseOffsets.lookup off = some (sha o)) := by
  refine ⟨collectObjects_eq_iterSpec, ?_, ?_⟩
  · intro sha st off crc o st1 h
    unfold resolve_ref_delta at h
    cases hL : st.refDeltas.getLast? with
    | none => rw [hL] at h; cases h
    | some e =>
      obtain ⟨offset, checksum, po⟩ := e
      rw [hL] at h
      cases po with
      | base b => simp at h
      | ofsDelta d pb => simp at h
      | refDelta base pb =>
        dsimp only at h
        cases h2 : st.baseObjects.lookup base with
        | none => rw [h2] at h; cases h
        | some bObj =>
          rw [h2] at h
          dsimp only at h
          cases h3 : bObj.patch pb with
          | none => rw [h3] at h; cases h
          | some patched =>
            rw [h3] at h
            dsimp only at h
            simp only [Option.some.injEq, Prod.mk.injEq] at h
            obtain ⟨⟨h4, h5, h6⟩, h7⟩ := h
            subst h4 h5 h6
            rw [← h7]
            constructor
            · simp [List.lookup]
            · simp [List.lookup]
  · intro sha st off crc o st1 h
    unfold resolve_ofs_delta at h
    cases hL : st.ofsDeltas.getLast? with
    | none => rw [hL] at h; cases h
    | some e =>
      obtain ⟨offset, checksum, po⟩ := e
      rw [hL] at h
      cases po with
      | base b => simp at h
      | refDelta s pb => simp at h
      | ofsDelta d pb =>
        dsimp only at h
        cases h1 : st.baseOffsets.lookup (offset - d) with
        | none => rw [h1] at h; cases h
        | some baseSha =>
          rw [h1] at h
          dsimp only at h
          cases h2 : st.baseObjects.lookup baseSha with
          | none => rw [h2] at h; cases h
          | some bObj =>
            rw [h2] at h
            dsimp only at h
            cases h3 : bObj.patch pb with
            | none => rw [h3] at h; cases h
            | some patched =>
              rw [h3] at h
              dsimp only at h
              simp only [Option.some.injEq, Prod.mk.injEq] at h
              obtain ⟨⟨h4, h5, h6⟩, h7⟩ := h
              subst h4 h5 h6
              rw [← h7]
              constructor
              · simp [List.lookup]
              · simp [List.lookup]

/-- Witness for the amended C5 theorem: the concrete run over `demoEntries`
agrees with the declarative decomposition. -/
theorem objects_iteration_spec_witness :
    collectObjects demoShaFn 10 demoEntries initObjectsState
      = iterSpec demoShaFn demoEntries :=
  objects_iteration_spec.1 demoShaFn demoEntries 10 (by decide)

end RGit
